import Mathlib

/-!
Encoded polyline codec (`polyline.go`).

A shallow embedding of `decodeString`, `Polyline.Decode`, `encode` and `Encode`.

* Bytes (`byte`, `uint8`) are natural numbers below 256; `uint8` arithmetic is taken
  modulo 256 explicitly.
* `int64` values are integers in `[-2^63, 2^63)`; every operation that can overflow
  goes through `wrap64` (two's complement, modulo 2^64).
* A `float64` is the rational number it stands for. Every `float64` operation gives
  the exact result rounded to the nearest `float64` (`roundF64`), and the conversion
  `int64(f)` truncates toward zero.
* The channel between `decodeString` and `Decode` is the list of the values sent, in
  the order they are sent; closing the channel is the end of the list.
-/

namespace Maps

/-! ## Machine arithmetic -/

/-- Two's complement reduction of an integer to the `int64` range. -/
def wrap64 (x : Int) : Int := (x + 2 ^ 63) % 2 ^ 64 - 2 ^ 63

/-- The `int64` range. -/
def InInt64 (x : Int) : Prop := -2 ^ 63 ≤ x ∧ x < 2 ^ 63

instance (x : Int) : Decidable (InInt64 x) := by unfold InInt64; infer_instance

/-- Go `a + b` on `int64`. -/
def add64 (a b : Int) : Int := wrap64 (a + b)

/-- Go `a - b` on `int64`. -/
def sub64 (a b : Int) : Int := wrap64 (a - b)

/-- Go `a << k` on `int64` with an unsigned count: bits shifted past bit 63 are lost,
and a count of 64 or more leaves 0. -/
def shl64 (a : Int) (k : Nat) : Int := if k < 64 then wrap64 (a * 2 ^ k) else 0

/-- Go `a >> k` on `int64`: arithmetic shift, rounding toward minus infinity. -/
def sar64 (a : Int) (k : Nat) : Int := a / 2 ^ k

/-- Go `^a` on `int64`: bitwise complement. -/
def not64 (a : Int) : Int := -a - 1

/-- Go `byte(v)` for an `int64`: the low eight bits. -/
def byteOf (v : Int) : Nat := (v % 256).toNat

/-- Go `a + b` on `uint8`. -/
def add8 (a b : Nat) : Nat := (a + b) % 256

/-- Go `a - b` on `uint8`. -/
def sub8 (a b : Nat) : Nat := (a + (256 - b % 256)) % 256

/-- Rounding of a real number to the nearest integer, a tie going to the even one. -/
def roundEven (q : ℚ) : Int :=
  let f := ⌊q⌋
  let r := q - f
  if r < 1 / 2 then f else if 1 / 2 < r then f + 1 else if f % 2 = 0 then f else f + 1

/-- The `float64` nearest to a real number (IEEE 754 round to nearest, ties to even):
53 significant bits, least exponent -1074 (subnormal numbers included). A `float64`
is the rational number it stands for; a result past the largest finite `float64`
(the code would hold an infinity) is left as the large rational, which lies far
outside the `int64` range. -/
def roundF64 (p : ℚ) : ℚ :=
  if p = 0 then 0 else
    let e := max (Int.log 2 |p| - 52) (-1074)
    (roundEven (p / 2 ^ e) : ℚ) * 2 ^ e

/-! ## Data model -/

/-- Modelled from the spec: the type `LatLng` is declared outside `polyline.go`; a
coordinate is a pair of doubles (latitude, longitude) in degrees, each held as the
rational number it stands for. -/
structure LatLng where
  Lat : ℚ
  Lng : ℚ
deriving DecidableEq

/-- The encoded form: `Points []byte`. -/
structure Polyline where
  Points : List Nat
deriving DecidableEq

/-- Go `int64(f)` for a `float64` value: inside the `int64` range the fraction is
discarded (truncation toward zero). Outside the range the conversion is implementation
dependent; the result of amd64, the least `int64`, is taken. -/
def toInt64 (f : ℚ) : Int :=
  let t := Int.tdiv f.num f.den
  if InInt64 t then t else -2 ^ 63

/-- The constant `1e-5` as a `float64`. -/
def float1em5 : ℚ := roundF64 (1 / 100000)

/-- Go `float64(n) * 1e-5`: the conversion of the `int64` and the product are both
rounded to `float64`. -/
def scale (n : Int) : ℚ := roundF64 (roundF64 (n : ℚ) * float1em5)

/-! ## `decodeString` -/

/-- The body of `for _, c := range s` in `decodeString`, started in the state
`(result, shift)`; the list returned holds the values sent over the channel. -/
def decodeLoop : Int → Nat → List Nat → List Int
  | _, _, [] => []
  | result, shift, c :: s =>
    let b := sub8 (sub8 c 63) 1
    let result := add64 result (shl64 (b : Int) shift)
    let shift := add8 shift 5
    if b ≥ 0x1f then
      decodeLoop result shift s
    else
      let bit := result % 2
      let result := sar64 result 1
      let result := if bit ≠ 0 then not64 result else result
      result :: decodeLoop 1 0 s

/-- The values `decodeString(s, ch)` sends over `ch` before closing it. -/
def decodeString (s : List Nat) : List Int := decodeLoop 1 0 s

/-! ## `Polyline.Decode` -/

/-- The `for` loop of `Decode`, reading the channel two values at a time; it returns
as soon as the second receive reports the channel closed. -/
def decodePairs : Int → Int → List Int → List LatLng
  | lat, lng, dlat :: dlng :: ch =>
    let lat := add64 lat dlat
    let lng := add64 lng dlng
    { Lat := scale lat, Lng := scale lng } :: decodePairs lat lng ch
  | _, _, _ => []

/-- The method `(p *Polyline) Decode() []LatLng`. -/
def Decode (p : Polyline) : List LatLng := decodePairs 0 0 (decodeString p.Points)

/-! ## `encode` -/

/-- The loop `for v >= 0x20 { ... }` of `encode` followed by the final `WriteByte`.
Each round divides a positive `v` by 32, so 13 rounds exhaust any `int64`; `fuel`
bounds the number of rounds and an exhausted bound writes nothing. -/
def encodeLoop : Nat → Int → List Nat
  | 0, _ => []
  | fuel + 1, v =>
    if v ≥ 0x20 then
      add8 (0x20 ||| (byteOf v &&& 0x1f)) 63 :: encodeLoop fuel (sar64 v 5)
    else
      [add8 (byteOf v) 63]

/-- The sign fold at the head of `encode`. -/
def fold (v : Int) : Int := if v < 0 then not64 (shl64 v 1) else shl64 v 1

/-- The bytes `encode(v, w)` writes to `w`. -/
def encode (v : Int) : List Nat := encodeLoop 64 (fold v)

/-! ## `Encode` -/

/-- The `for _, point := range path` loop of `Encode`, started with `llat`, `llng`. -/
def encodePath : Int → Int → List LatLng → List Nat
  | _, _, [] => []
  | llat, llng, point :: path =>
    let lat := toInt64 (roundF64 (point.Lat * 100000))
    let lng := toInt64 (roundF64 (point.Lng * 100000))
    encode (sub64 lat llat) ++ (encode (sub64 lng llng) ++ encodePath lat lng path)

/-- The function `Encode(path []LatLng) *Polyline`. -/
def Encode (path : List LatLng) : Polyline := { Points := encodePath 0 0 path }


/-! ## Auxiliary definitions used in the statements -/

/-- The arguments that the loop of `Encode` passes to `encode`, in the order of the
calls: for each point the latitude difference, then the longitude difference. -/
def deltas : Int → Int → List LatLng → List Int
  | _, _, [] => []
  | llat, llng, point :: path =>
    let lat := toInt64 (roundF64 (point.Lat * 100000))
    let lng := toInt64 (roundF64 (point.Lng * 100000))
    sub64 lat llat :: sub64 lng llng :: deltas lat lng path

/-- The range on which the shift `v << 1` of `encode` loses no bit. -/
def InFoldRange (v : Int) : Prop := -2 ^ 62 ≤ v ∧ v < 2 ^ 62

instance (v : Int) : Decidable (InFoldRange v) := by unfold InFoldRange; infer_instance

/-- The number a run of wire bytes stands for: base-32 digits, least significant
first, continuation bytes carrying the offset 95 and the final byte the offset 63. -/
def unchunk : List Nat → Int
  | [] => 0
  | [c] => (c : Int) - 63
  | c :: d :: cs => ((c : Int) - 95) + 32 * unchunk (d :: cs)

/-- The error values named in the specification of the decoder; `polyline.go`
declares none of them. -/
inductive DecodeError where
  | TruncatedVarint
  | TruncatedPointPair
deriving DecidableEq

/-- What a caller of `Decode` gets back. The Go signature `Decode() []LatLng` has one
result and no error result, so every call hands back a list of points. -/
def DecodeOutcome (p : Polyline) : Except DecodeError (List LatLng) := Except.ok (Decode p)

/-- The test `b >= 0x1f` of `decodeString` on the byte `c`: the byte does not end the
current integer. -/
def nonTerminating (c : Nat) : Prop := sub8 (sub8 c 63) 1 ≥ 0x1f

instance (c : Nat) : Decidable (nonTerminating c) := by unfold nonTerminating; infer_instance

/-- The integer `Encode` computes for the latitude of point `k` (0 past the end). -/
def latAt (path : List LatLng) (k : Nat) : Int :=
  match path[k]? with
  | some point => toInt64 (roundF64 (point.Lat * 100000))
  | none => 0

/-- The integer `Encode` computes for the longitude of point `k` (0 past the end). -/
def lngAt (path : List LatLng) (k : Nat) : Int :=
  match path[k]? with
  | some point => toInt64 (roundF64 (point.Lng * 100000))
  | none => 0

/-- The predecessor in a sequence that starts from `init`: `prev init f 0 = init`
and `prev init f (k+1) = f k`. -/
def prev (init : Int) (f : Nat → Int) : Nat → Int
  | 0 => init
  | k + 1 => f k

/-- The exact sum `d_0 + d_2 + ... + d_{2k}` of a stream `ds`. -/
def evenSum (ds : List Int) (k : Nat) : Int :=
  ((List.range (k + 1)).map (fun i => ds.getD (2 * i) 0)).sum

/-- The exact sum `d_1 + d_3 + ... + d_{2k+1}` of a stream `ds`. -/
def oddSum (ds : List Int) (k : Nat) : Int :=
  ((List.range (k + 1)).map (fun i => ds.getD (2 * i + 1) 0)).sum

/-- The folded value in the words of the specification: `2v` for `v ≥ 0` and
`-2v-1` for `v < 0`, as a natural number. -/
def specFold (v : Int) : Nat := if 0 ≤ v then (2 * v).toNat else (-(2 * v) - 1).toNat

/-- The wire bytes of a list of base-32 digits given least significant first: every
digit but the last carries the offset 95, the last one the offset 63; the empty list
of digits (the number 0) is the single digit 0. -/
def wireBytes : List Nat → List Nat
  | [] => [63]
  | [d] => [d + 63]
  | d :: e :: ds => (d + 95) :: wireBytes (e :: ds)

/-- The `for` loop of `Decode` run for at most `fuel` rounds on the values still to be
received, with `path` built by `append`: `some path` is `return path`, `none` means
the rounds were used up. The loop has no `break`, so the statement that follows it
is reached by no run. -/
def decodeFor : Nat → Int → Int → List Int → List LatLng → Option (List LatLng)
  | 0, _, _, _, _ => none
  | fuel + 1, lat, lng, ch, path =>
    match ch with
    | dlat :: dlng :: ch =>
      let lat := add64 lat dlat
      let lng := add64 lng dlng
      decodeFor fuel lat lng ch (path ++ [{ Lat := scale lat, Lng := scale lng }])
    | _ => some path

/-- The integer points `Encode` computes for a path: `int64(point.Lat*1e5)` and
`int64(point.Lng*1e5)` for each point, in order. -/
def quantised (path : List LatLng) : List (Int × Int) :=
  path.map (fun point =>
    (toInt64 (roundF64 (point.Lat * 100000)), toInt64 (roundF64 (point.Lng * 100000))))

/-- The consecutive differences of a list of integer points, latitude then longitude
for each point, the first point taken against `(a, b)`; exact integer differences. -/
def diffs : Int → Int → List (Int × Int) → List Int
  | _, _, [] => []
  | a, b, p :: pts => (p.1 - a) :: (p.2 - b) :: diffs p.1 p.2 pts

/-- The pairs of integers `Decode` accumulates, before the scaling by 1e-5. -/
def accumulate : Int → Int → List Int → List (Int × Int)
  | lat, lng, dlat :: dlng :: ch =>
    (add64 lat dlat, add64 lng dlng) :: accumulate (add64 lat dlat) (add64 lng dlng) ch
  | _, _, _ => []


/-! ## `float64` rounding: basic facts -/

theorem roundEven_intCast (z : Int) : roundEven (z : ℚ) = z := by
  unfold roundEven
  simp

theorem roundEven_error (q : ℚ) : |((roundEven q : Int) : ℚ) - q| ≤ 1 / 2 := by
  have h1 : (⌊q⌋ : ℚ) ≤ q := Int.floor_le q
  have h2 : q < (⌊q⌋ : ℚ) + 1 := Int.lt_floor_add_one q
  unfold roundEven
  simp only
  split
  · rw [abs_le]; constructor <;> linarith
  · split
    · rw [abs_le]; push_cast; constructor <;> linarith
    · split
      · rw [abs_le]; constructor <;> linarith
      · rw [abs_le]; push_cast; constructor <;> linarith

/-- A number with at most 53 significant bits and an exponent of at least -1074 is a
`float64`: rounding leaves it as it is. -/
theorem roundF64_exact (m e : Int) (hm : |m| < 2 ^ 53) (he : -1074 ≤ e) :
    roundF64 ((m : ℚ) * 2 ^ e) = (m : ℚ) * 2 ^ e := by
  by_cases hm0 : m = 0
  · subst hm0; simp [roundF64]
  have h2pos : (0 : ℚ) < 2 ^ e := zpow_pos (by norm_num) e
  have hp0 : (m : ℚ) * 2 ^ e ≠ 0 := mul_ne_zero (by exact_mod_cast hm0) (ne_of_gt h2pos)
  have habs : |(m : ℚ) * 2 ^ e| < 2 ^ (53 + e) := by
    rw [abs_mul, abs_of_pos h2pos, zpow_add₀ (by norm_num : (2 : ℚ) ≠ 0)]
    apply mul_lt_mul_of_pos_right _ h2pos
    have : ((|m| : Int) : ℚ) < ((2 ^ 53 : Int) : ℚ) := by exact_mod_cast hm
    push_cast at this
    rw [show ((2 : ℚ) ^ (53 : Int)) = 9007199254740992 by norm_num]
    exact this
  have hlog : Int.log 2 |(m : ℚ) * 2 ^ e| < 53 + e := by
    have h1 := Int.zpow_log_le_self (b := 2) (r := |(m : ℚ) * 2 ^ e|) (by norm_num)
      (abs_pos.2 hp0)
    have h2 : ((2 : ℕ) : ℚ) ^ Int.log 2 |(m : ℚ) * 2 ^ e| < 2 ^ (53 + e) := lt_of_le_of_lt h1 habs
    rw [Nat.cast_ofNat] at h2
    exact (zpow_lt_zpow_iff_right₀ (by norm_num : (1 : ℚ) < 2)).1 h2
  have hle : max (Int.log 2 |(m : ℚ) * 2 ^ e| - 52) (-1074) ≤ e := max_le (by omega) he
  obtain ⟨n, hn⟩ := Int.eq_ofNat_of_zero_le (sub_nonneg.2 hle)
  unfold roundF64
  rw [if_neg hp0]
  simp only
  generalize max (Int.log 2 |(m : ℚ) * 2 ^ e| - 52) (-1074) = e0 at hle hn
  have he : e = e0 + n := by omega
  have h20 : (2 : ℚ) ^ e0 ≠ 0 := ne_of_gt (zpow_pos (by norm_num) e0)
  have hdiv : (m : ℚ) * 2 ^ e / 2 ^ e0 = ((m * 2 ^ n : Int) : ℚ) := by
    rw [he, zpow_add₀ (by norm_num : (2 : ℚ) ≠ 0), zpow_natCast]
    push_cast
    field_simp
    ring
  rw [hdiv, roundEven_intCast, he, zpow_add₀ (by norm_num : (2 : ℚ) ≠ 0), zpow_natCast]
  push_cast
  ring

theorem roundF64_intCast (n : Int) (hn : |n| < 2 ^ 53) : roundF64 (n : ℚ) = n := by
  have := roundF64_exact n 0 hn (by norm_num)
  simpa using this

/-- The rounding error of a `float64` operation: at most half a unit in the last
place, that is 2^-53 of the magnitude, or 2^-1075 in the subnormal range. -/
theorem roundF64_error (p : ℚ) : |roundF64 p - p| ≤ |p| / 2 ^ 53 + 1 / 2 ^ 1075 := by
  by_cases hp0 : p = 0
  · subst hp0; simp [roundF64]
  unfold roundF64
  rw [if_neg hp0]
  simp only
  have hlog := Int.zpow_log_le_self (b := 2) (r := |p|) (by norm_num) (abs_pos.2 hp0)
  rw [Nat.cast_ofNat] at hlog
  generalize Int.log 2 |p| = k at hlog
  have h2pos : (0 : ℚ) < 2 ^ max (k - 52) (-1074) := zpow_pos (by norm_num) _
  have hstep : |((roundEven (p / 2 ^ max (k - 52) (-1074)) : Int) : ℚ) * 2 ^ max (k - 52) (-1074) - p|
      ≤ 1 / 2 * 2 ^ max (k - 52) (-1074) := by
    have herr := roundEven_error (p / 2 ^ max (k - 52) (-1074))
    have heq : ((roundEven (p / 2 ^ max (k - 52) (-1074)) : Int) : ℚ) * 2 ^ max (k - 52) (-1074) - p
        = (((roundEven (p / 2 ^ max (k - 52) (-1074)) : Int) : ℚ) - p / 2 ^ max (k - 52) (-1074))
          * 2 ^ max (k - 52) (-1074) := by
      field_simp
    rw [heq, abs_mul, abs_of_pos h2pos]
    exact mul_le_mul_of_nonneg_right herr (le_of_lt h2pos)
  have hbound : (2 : ℚ) ^ max (k - 52) (-1074) ≤ |p| / 2 ^ 52 + 1 / 2 ^ 1074 := by
    have hnn : (0 : ℚ) ≤ |p| / 2 ^ 52 := by positivity
    rcases max_cases (k - 52) (-1074) with ⟨h, -⟩ | ⟨h, -⟩
    · rw [h, zpow_sub₀ (by norm_num : (2 : ℚ) ≠ 0)]
      have : (2 : ℚ) ^ k / 2 ^ (52 : Int) ≤ |p| / 2 ^ 52 := by
        rw [show ((2 : ℚ) ^ (52 : Int)) = 2 ^ 52 by norm_num]
        exact div_le_div_of_nonneg_right hlog (by positivity)
      have h3 : (0 : ℚ) ≤ 1 / 2 ^ 1074 := by positivity
      linarith
    · rw [h]
      have : (2 : ℚ) ^ (-1074 : Int) = 1 / 2 ^ 1074 := by
        rw [zpow_neg, one_div]; norm_num
      rw [this]; linarith
  calc |((roundEven (p / 2 ^ max (k - 52) (-1074)) : Int) : ℚ) * 2 ^ max (k - 52) (-1074) - p|
      ≤ 1 / 2 * 2 ^ max (k - 52) (-1074) := hstep
    _ ≤ 1 / 2 * (|p| / 2 ^ 52 + 1 / 2 ^ 1074) := by
        exact mul_le_mul_of_nonneg_left hbound (by norm_num)
    _ = |p| / 2 ^ 53 + 1 / 2 ^ 1075 := by
        rw [show (2 : ℚ) ^ 53 = 2 * 2 ^ 52 by norm_num, show (2 : ℚ) ^ 1075 = 2 * 2 ^ 1074 by
          rw [pow_succ]; ring]
        field_simp
        ring

/-! ## The conversion `int64(f)` and the quantisation of a coordinate -/

theorem toInt64_intCast {n : Int} (h : InInt64 n) : toInt64 (n : ℚ) = n := by
  unfold toInt64
  simp only [Rat.intCast_num, Rat.den_intCast, Nat.cast_one, Int.tdiv_one]
  rw [if_pos h]

theorem inInt64_toInt64 (f : ℚ) : InInt64 (toInt64 f) := by
  unfold toInt64
  simp only
  split
  · assumption
  · decide

/-- A coordinate whose product with 1e5 is an integer below 2^53 in magnitude is
quantised to that integer: neither the product nor the conversion rounds. -/
theorem quantise_exact (x : ℚ) (n : Int) (h : x * 100000 = (n : ℚ))
    (hn : -2 ^ 53 < n ∧ n < 2 ^ 53) : toInt64 (roundF64 (x * 100000)) = n := by
  rw [h, roundF64_intCast n (abs_lt.2 hn)]
  apply toInt64_intCast
  unfold InInt64
  omega
/-! ## Machine arithmetic: basic facts -/

theorem wrap64_of_inInt64 {x : Int} (h : InInt64 x) : wrap64 x = x := by
  unfold InInt64 at h; unfold wrap64; omega

theorem wrap64_add_left (a b : Int) : wrap64 (wrap64 a + b) = wrap64 (a + b) := by
  unfold wrap64; omega

theorem inInt64_wrap64 (x : Int) : InInt64 (wrap64 x) := by
  unfold InInt64 wrap64; omega

theorem lor_land_low (x : Nat) : 0x20 ||| (x &&& 0x1f) = 32 + x % 32 := by
  have h : x &&& 0x1f = x % 32 := Nat.and_pow_two_sub_one_eq_mod x 5
  rw [h]
  have h2 : x % 32 < 32 := Nat.mod_lt _ (by norm_num)
  generalize x % 32 = y at h2
  interval_cases y <;> rfl

/-- On the fold range the sign fold is `2v` for `v ≥ 0` and `-2v-1` for `v < 0`. -/
theorem fold_eq {v : Int} (h : InFoldRange v) :
    fold v = if v < 0 then -(2 * v) - 1 else 2 * v := by
  unfold InFoldRange at h
  unfold fold not64 shl64 wrap64
  simp only [show (1 : Nat) < 64 by norm_num, if_true, pow_one]
  split <;> omega

theorem fold_bounds {v : Int} (h : InFoldRange v) : 0 ≤ fold v ∧ fold v < 2 ^ 63 := by
  rw [fold_eq h]; unfold InFoldRange at h
  split <;> omega

theorem fold_injective {v w : Int} (hv : InFoldRange v) (hw : InFoldRange w)
    (h : fold v = fold w) : v = w := by
  rw [fold_eq hv, fold_eq hw] at h
  split at h <;> split at h <;> omega

/-! ## The chunk loop of `encode` -/

theorem encodeLoop_last (fuel : Nat) {u : Int} (h0 : 0 ≤ u) (h : u < 32) :
    encodeLoop (fuel + 1) u = [(u + 63).toNat] := by
  have hn : ¬ u ≥ 0x20 := by norm_num; omega
  simp only [encodeLoop, hn, if_false, add8, byteOf]
  congr 1; omega

theorem encodeLoop_more (fuel : Nat) {u : Int} (h : 32 ≤ u) :
    encodeLoop (fuel + 1) u = (95 + (u % 32).toNat) :: encodeLoop fuel (u / 32) := by
  have hn : u ≥ 0x20 := by norm_num; omega
  simp only [encodeLoop, hn, if_true, add8, lor_land_low, sar64, byteOf]
  congr 1
  omega

/-- With enough rounds the loop ends by itself: the bytes written are a run of
continuation bytes followed by one final byte. -/
theorem encodeLoop_shape (fuel : Nat) : ∀ u : Int, 0 ≤ u → u < 32 ^ (fuel + 1) →
    ∃ cs l, encodeLoop (fuel + 1) u = cs ++ [l] ∧
      (∀ c ∈ cs, 95 ≤ c ∧ c ≤ 126) ∧ 63 ≤ l ∧ l ≤ 94 := by
  induction fuel with
  | zero =>
    intro u h0 h
    refine ⟨[], (u + 63).toNat, ?_, by simp, ?_, ?_⟩
    · simpa using encodeLoop_last 0 h0 (by simpa using h)
    · omega
    · norm_num at h; omega
  | succ n ih =>
    intro u h0 h
    by_cases hu : u < 32
    · refine ⟨[], (u + 63).toNat, ?_, by simp, ?_, ?_⟩
      · simpa using encodeLoop_last (n + 1) h0 hu
      · omega
      · omega
    · have hu32 : 32 ≤ u := by omega
      have hdiv : u / 32 < 32 ^ (n + 1) := by
        rw [pow_succ] at h
        omega
      obtain ⟨cs, l, hcs, hall, hl⟩ := ih (u / 32) (by omega) hdiv
      refine ⟨(95 + (u % 32).toNat) :: cs, l, ?_, ?_, hl⟩
      · rw [encodeLoop_more (n + 1) hu32, hcs]; rfl
      · intro c hc
        rcases List.mem_cons.1 hc with rfl | hc
        · omega
        · exact hall c hc

/-- The bytes of the chunk loop determine the number they were cut from. -/
theorem unchunk_encodeLoop (fuel : Nat) : ∀ u : Int, 0 ≤ u → u < 32 ^ (fuel + 1) →
    unchunk (encodeLoop (fuel + 1) u) = u := by
  induction fuel with
  | zero =>
    intro u h0 h
    rw [encodeLoop_last 0 h0 (by simpa using h)]
    simp only [unchunk]; omega
  | succ n ih =>
    intro u h0 h
    by_cases hu : u < 32
    · rw [encodeLoop_last (n + 1) h0 hu]
      simp only [unchunk]; omega
    · have hu32 : 32 ≤ u := by omega
      have hdiv : u / 32 < 32 ^ (n + 1) := by
        rw [pow_succ] at h
        omega
      have hrec := ih (u / 32) (by omega) hdiv
      obtain ⟨cs, l, hcs, -, -⟩ := encodeLoop_shape n (u / 32) (by omega) hdiv
      rw [encodeLoop_more (n + 1) hu32]
      cases hrest : encodeLoop (n + 1) (u / 32) with
      | nil => rw [hrest] at hcs; simp at hcs
      | cons d ds =>
        rw [hrest] at hrec
        simp only [unchunk]
        rw [hrec]; omega

theorem pow63_lt : (2 : Int) ^ 63 < 32 ^ (63 + 1) := by norm_num

theorem unchunk_encode {v : Int} (h : InFoldRange v) : unchunk (encode v) = fold v := by
  have hb := fold_bounds h
  exact unchunk_encodeLoop 63 (fold v) hb.1 (lt_trans hb.2 pow63_lt)

/-! ## The bound on the rounds of the chunk loop is never reached -/

theorem fold_lt (v : Int) : fold v < 2 ^ 63 := by
  unfold fold not64 shl64 wrap64
  simp only [show (1 : Nat) < 64 by norm_num, if_true, pow_one]
  split <;> omega

theorem encodeLoop_fuel (fuel : Nat) : ∀ u : Int, u < 32 ^ (fuel + 1) → ∀ extra : Nat,
    encodeLoop (fuel + extra + 1) u = encodeLoop (fuel + 1) u := by
  induction fuel with
  | zero =>
    intro u h extra
    have hn : ¬ u ≥ 0x20 := by norm_num at h ⊢; omega
    simp only [encodeLoop, hn, if_false]
  | succ n ih =>
    intro u h extra
    by_cases hu : u ≥ 0x20
    · have hdiv : u / 32 < 32 ^ (n + 1) := by
        rw [pow_succ] at h
        omega
      have hu32 : 32 ≤ u := by norm_num at hu; omega
      rw [show n + 1 + extra + 1 = (n + extra + 1) + 1 by omega,
        encodeLoop_more (n + extra + 1) hu32, encodeLoop_more (n + 1) hu32,
        ih (u / 32) hdiv extra]
    · simp only [encodeLoop, hu, if_false]

/-- For every integer `v` the loop of `encode` stops by its own test before the bound
of 64 rounds: any larger bound gives the same bytes. -/
theorem encode_fuel_independent (v : Int) (extra : Nat) :
    encodeLoop (64 + extra) (fold v) = encode v := by
  have h := encodeLoop_fuel 63 (fold v) (lt_trans (fold_lt v) pow63_lt) extra
  rw [show 64 + extra = 63 + extra + 1 by omega]
  exact h

/-! ## `Encode` as a sequence of calls of `encode` -/

theorem encodePath_eq_flatMap (path : List LatLng) : ∀ llat llng : Int,
    encodePath llat llng path = (deltas llat llng path).flatMap encode := by
  induction path with
  | nil => intro llat llng; rfl
  | cons point path ih =>
    intro llat llng
    simp only [encodePath, deltas, List.flatMap_cons, ih]

theorem continuation_bit_set {c : Nat} (h : 95 ≤ c ∧ c ≤ 126) : (c - 63) &&& 0x20 ≠ 0 := by
  obtain ⟨h1, h2⟩ := h
  interval_cases c <;> decide

theorem continuation_bit_clear {l : Nat} (h : 63 ≤ l ∧ l ≤ 94) : (l - 63) &&& 0x20 = 0 := by
  obtain ⟨h1, h2⟩ := h
  interval_cases l <;> decide

theorem encode_shape {v : Int} (h : InFoldRange v) :
    ∃ cs l, encode v = cs ++ [l] ∧ (∀ c ∈ cs, 95 ≤ c ∧ c ≤ 126) ∧ 63 ≤ l ∧ l ≤ 94 := by
  have hb := fold_bounds h
  exact encodeLoop_shape 63 (fold v) hb.1 (lt_trans hb.2 pow63_lt)

/-! ## Claims -/

/-- C1. Evaluation at the failing input: the path holding the single point (0,0) is
on the 1e-5 grid, `Encode` writes the two bytes 63, 63 for it, `decodeString` sends
no value for these bytes and `Decode` returns the empty list, so the round trip
loses the point. -/
theorem Decode_Encode_origin_empty :
    (Encode [{ Lat := 0, Lng := 0 }]).Points = [63, 63] ∧
    decodeString [63, 63] = [] ∧
    Decode (Encode [{ Lat := 0, Lng := 0 }]) = [] := by
  have h0 : toInt64 (roundF64 ((0 : ℚ) * 100000)) = 0 :=
    quantise_exact 0 0 (by norm_num) (by decide)
  refine ⟨?_, by decide, ?_⟩
  · simp only [Encode, encodePath, h0]; decide
  · simp only [Encode, encodePath, h0]; decide

/-- C2. Known vector: the path (38.5,-120.2), (40.7,-120.95), (43.252,-126.453)
quantises to (3850000,-12020000), (4070000,-12095000), (4325200,-12645300), the
differences handed to `encode` are 3850000, -12020000, 220000, -75000, 255200,
-550300, and `Encode` produces the 27 bytes of the reference string. -/
theorem Encode_known_vector :
    deltas 0 0 [{ Lat := 38.5, Lng := -120.2 }, { Lat := 40.7, Lng := -120.95 },
        { Lat := 43.252, Lng := -126.453 }]
      = [3850000, -12020000, 220000, -75000, 255200, -550300] ∧
    (Encode [{ Lat := 38.5, Lng := -120.2 }, { Lat := 40.7, Lng := -120.95 },
        { Lat := 43.252, Lng := -126.453 }]).Points
      = "_p~iF~ps|U_ulLnnqC_mqNvxq`@".toList.map Char.toNat ∧
    (Encode [{ Lat := 38.5, Lng := -120.2 }, { Lat := 40.7, Lng := -120.95 },
        { Lat := 43.252, Lng := -126.453 }]).Points.length = 27 := by
  have h1 : toInt64 (roundF64 ((38.5 : ℚ) * 100000)) = 3850000 :=
    quantise_exact _ _ (by norm_num) (by decide)
  have h2 : toInt64 (roundF64 ((-120.2 : ℚ) * 100000)) = -12020000 :=
    quantise_exact _ _ (by norm_num) (by decide)
  have h3 : toInt64 (roundF64 ((40.7 : ℚ) * 100000)) = 4070000 :=
    quantise_exact _ _ (by norm_num) (by decide)
  have h4 : toInt64 (roundF64 ((-120.95 : ℚ) * 100000)) = -12095000 :=
    quantise_exact _ _ (by norm_num) (by decide)
  have h5 : toInt64 (roundF64 ((43.252 : ℚ) * 100000)) = 4325200 :=
    quantise_exact _ _ (by norm_num) (by decide)
  have h6 : toInt64 (roundF64 ((-126.453 : ℚ) * 100000)) = -12645300 :=
    quantise_exact _ _ (by norm_num) (by decide)
  refine ⟨?_, ?_, ?_⟩
  · simp only [deltas, h1, h2, h3, h4, h5, h6]; decide
  · simp only [Encode, encodePath, h1, h2, h3, h4, h5, h6]; decide
  · simp only [Encode, encodePath, h1, h2, h3, h4, h5, h6]; decide

/-- C4, counterexample: the `int64` value -2^63 is written as the single byte 62,
which lies outside [63,126]. -/
theorem encode_min_int64_outside_alphabet :
    InInt64 (-2 ^ 63) ∧ encode (-2 ^ 63) = [62] ∧
    ¬ (∀ c ∈ encode (-2 ^ 63), 63 ≤ c ∧ c ≤ 126) := by
  decide

/-- C4, amended: for every `v` with -2^62 ≤ v < 2^62 the bytes of `encode v` are a
run of bytes in [95,126], each with the continuation bit set once the offset 63 is
removed, followed by one last byte in [63,94] with that bit clear; and for every path
whose differences all lie in that range, every byte of `Encode(path).Points` lies in
[63,126]. -/
theorem encode_alphabet :
    (∀ v : Int, InFoldRange v → ∃ cs l, encode v = cs ++ [l] ∧
        (∀ c ∈ cs, (95 ≤ c ∧ c ≤ 126) ∧ (c - 63) &&& 0x20 ≠ 0) ∧
        (63 ≤ l ∧ l ≤ 94) ∧ (l - 63) &&& 0x20 = 0) ∧
    (∀ path : List LatLng, (∀ d ∈ deltas 0 0 path, InFoldRange d) →
        ∀ c ∈ (Encode path).Points, 63 ≤ c ∧ c ≤ 126) := by
  constructor
  · intro v hv
    obtain ⟨cs, l, hcs, hall, hl⟩ := encode_shape hv
    exact ⟨cs, l, hcs, fun c hc => ⟨hall c hc, continuation_bit_set (hall c hc)⟩, hl,
      continuation_bit_clear hl⟩
  · intro path hpath c hc
    simp only [Encode, encodePath_eq_flatMap, List.mem_flatMap] at hc
    obtain ⟨d, hd, hcd⟩ := hc
    obtain ⟨cs, l, hcs, hall, hl⟩ := encode_shape (hpath d hd)
    rw [hcs] at hcd
    rcases List.mem_append.1 hcd with hmem | hmem
    · have := hall c hmem; omega
    · have : c = l := by simpa using hmem
      omega

/-- C4, instance of the amended claim: the value -75000 and a one-point path. -/
theorem encode_alphabet_witness :
    (∃ cs l, encode (-75000) = cs ++ [l] ∧
        (∀ c ∈ cs, (95 ≤ c ∧ c ≤ 126) ∧ (c - 63) &&& 0x20 ≠ 0) ∧
        (63 ≤ l ∧ l ≤ 94) ∧ (l - 63) &&& 0x20 = 0) ∧
    (∀ c ∈ (Encode [{ Lat := 38.5, Lng := -120.2 }]).Points, 63 ≤ c ∧ c ≤ 126) :=
  ⟨encode_alphabet.1 (-75000) (by decide),
   encode_alphabet.2 [{ Lat := 38.5, Lng := -120.2 }]
     (by
       have h1 : toInt64 (roundF64 ((38.5 : ℚ) * 100000)) = 3850000 :=
         quantise_exact _ _ (by norm_num) (by decide)
       have h2 : toInt64 (roundF64 ((-120.2 : ℚ) * 100000)) = -12020000 :=
         quantise_exact _ _ (by norm_num) (by decide)
       simp only [deltas, h1, h2]; decide)⟩

/-- C7. Evaluation at the failing input: for the path holding the single point (0,0),
`Encode` writes the bytes 63, 63, while encoding again what `Decode` returns for them
writes nothing. -/
theorem reencode_origin_differs :
    (Encode [{ Lat := 0, Lng := 0 }]).Points = [63, 63] ∧
    (Encode (Decode (Encode [{ Lat := 0, Lng := 0 }]))).Points = [] ∧
    Encode (Decode (Encode [{ Lat := 0, Lng := 0 }])) ≠ Encode [{ Lat := 0, Lng := 0 }] := by
  have h0 : toInt64 (roundF64 ((0 : ℚ) * 100000)) = 0 :=
    quantise_exact 0 0 (by norm_num) (by decide)
  have h1 : Encode [{ Lat := 0, Lng := 0 }] = { Points := [63, 63] } := by
    simp only [Encode, encodePath, h0]; decide
  have h2 : Decode { Points := [63, 63] } = [] := by decide
  rw [h1, h2]
  exact ⟨rfl, rfl, by decide⟩

/-- C8. Evaluation at the failing input: `Encode` of the single point (0,0) is the two
bytes 63, 63; on these bytes `decodeString` treats both as non-terminating
(`63 - 63 - 1` is 255 in `uint8`), sends nothing, and `Decode` returns no point. -/
theorem origin_bytes_decode_empty :
    (Encode [{ Lat := 0, Lng := 0 }]).Points = [63, 63] ∧
    "??".toList.map Char.toNat = [63, 63] ∧
    sub8 (sub8 63 63) 1 = 255 ∧
    decodeString [63, 63] = [] ∧
    Decode { Points := [63, 63] } = [] ∧
    Decode { Points := [63, 63] } ≠ [{ Lat := 0, Lng := 0 }] := by
  have h0 : toInt64 (roundF64 ((0 : ℚ) * 100000)) = 0 :=
    quantise_exact 0 0 (by norm_num) (by decide)
  refine ⟨?_, by decide, by decide, by decide, by decide, by decide⟩
  simp only [Encode, encodePath, h0]; decide

/-- C9. Empty input: `Encode` of the empty path has `Points` of length 0, and `Decode`
of a Polyline with empty `Points` returns a path of length 0. -/
theorem empty_input :
    (Encode []).Points.length = 0 ∧ (Decode { Points := [] }).length = 0 := by
  exact ⟨rfl, rfl⟩

/-- C10, counterexample: the distinct `int64` values 0 and 2^62 are both written as
the single byte 63. -/
theorem encode_collision :
    InInt64 0 ∧ InInt64 (2 ^ 62) ∧ (0 : Int) ≠ 2 ^ 62 ∧ encode 0 = encode (2 ^ 62) := by
  decide

/-- C10, amended: `encode` is injective on the values `v` with -2^62 ≤ v < 2^62: two
different values in that range are written as different byte sequences. -/
theorem encode_injective (v w : Int) (hv : InFoldRange v) (hw : InFoldRange w)
    (hne : v ≠ w) : encode v ≠ encode w := by
  intro h
  apply hne
  apply fold_injective hv hw
  rw [← unchunk_encode hv, ← unchunk_encode hw, h]

/-- C10, instance of the amended claim: 0 and -1. -/
theorem encode_injective_witness :
    InFoldRange 0 ∧ InFoldRange (-1) ∧ (0 : Int) ≠ -1 ∧ encode 0 ≠ encode (-1) :=
  ⟨by decide, by decide, by decide,
   encode_injective 0 (-1) (by decide) (by decide) (by decide)⟩

/-! ## The pairing loop of `Decode` -/

theorem decodePairs_length : ∀ (m : Nat) (ds : List Int) (lat lng : Int),
    ds.length = 2 * m ∨ ds.length = 2 * m + 1 → (decodePairs lat lng ds).length = m := by
  intro m
  induction m with
  | zero =>
    intro ds lat lng h
    match ds, h with
    | [], _ => rfl
    | [_], _ => rfl
    | _ :: _ :: _, h => simp at h
  | succ n ih =>
    intro ds lat lng h
    match ds, h with
    | [], h => exact absurd h (by simp only [List.length_nil]; omega)
    | [_], h => exact absurd h (by simp only [List.length_cons, List.length_nil]; omega)
    | a :: b :: rest, h =>
      simp only [decodePairs, List.length_cons]
      rw [ih rest _ _ (by simp only [List.length_cons] at h; omega)]

theorem decodePairs_drop_last : ∀ (m : Nat) (ds : List Int) (d lat lng : Int),
    ds.length = 2 * m → decodePairs lat lng (ds ++ [d]) = decodePairs lat lng ds := by
  intro m
  induction m with
  | zero =>
    intro ds d lat lng h
    match ds, h with
    | [], _ => rfl
  | succ n ih =>
    intro ds d lat lng h
    match ds, h with
    | [], h => exact absurd h (by simp only [List.length_nil]; omega)
    | [_], h => exact absurd h (by simp only [List.length_cons, List.length_nil]; omega)
    | a :: b :: rest, h =>
      show decodePairs lat lng (a :: b :: (rest ++ [d])) = _
      simp only [decodePairs]
      rw [ih rest d _ _ (by simp only [List.length_cons] at h; omega)]

theorem evenSum_zero (a : Int) (ds : List Int) : evenSum (a :: ds) 0 = a := by
  show ((List.range 1).map _).sum = a
  rw [show List.range 1 = [0] from rfl]
  simp

theorem oddSum_zero (a b : Int) (ds : List Int) : oddSum (a :: b :: ds) 0 = b := by
  show ((List.range 1).map _).sum = b
  rw [show List.range 1 = [0] from rfl]
  simp

theorem evenSum_succ (a b : Int) (ds : List Int) (k : Nat) :
    evenSum (a :: b :: ds) (k + 1) = a + evenSum ds k := by
  unfold evenSum
  rw [List.range_succ_eq_map (k + 1), List.map_cons, List.sum_cons, List.map_map]
  congr 2

theorem oddSum_succ (a b : Int) (ds : List Int) (k : Nat) :
    oddSum (a :: b :: ds) (k + 1) = b + oddSum ds k := by
  unfold oddSum
  rw [List.range_succ_eq_map (k + 1), List.map_cons, List.sum_cons, List.map_map]
  congr 2

theorem decodePairs_get : ∀ (m : Nat) (ds : List Int) (lat lng : Int),
    ds.length = 2 * m → ∀ k, k < m →
      (decodePairs lat lng ds)[k]? =
        some { Lat := scale (wrap64 (lat + evenSum ds k)),
               Lng := scale (wrap64 (lng + oddSum ds k)) } := by
  intro m
  induction m with
  | zero => intro ds lat lng _ k hk; omega
  | succ n ih =>
    intro ds lat lng h k hk
    match ds, h with
    | [], h => exact absurd h (by simp only [List.length_nil]; omega)
    | [_], h => exact absurd h (by simp only [List.length_cons, List.length_nil]; omega)
    | a :: b :: rest, h =>
      have hrest : rest.length = 2 * n := by simp only [List.length_cons] at h; omega
      cases k with
      | zero =>
        simp only [decodePairs, List.getElem?_cons_zero, evenSum_zero, oddSum_zero, add64]
      | succ j =>
        simp only [decodePairs, List.getElem?_cons_succ, evenSum_succ, oddSum_succ]
        rw [ih rest _ _ hrest j (by omega)]
        simp only [add64, wrap64_add_left, add_assoc]

/-! ## Non-terminating bytes -/

theorem decodeLoop_nonTerminating (c : Nat) (hc : nonTerminating c) (result : Int)
    (shift : Nat) : decodeLoop result shift [c] = [] := by
  unfold nonTerminating at hc
  simp only [decodeLoop, hc, if_true]

theorem decodeLoop_append_nonTerminating (c : Nat) (hc : nonTerminating c) (s : List Nat) :
    ∀ (result : Int) (shift : Nat),
      decodeLoop result shift (s ++ [c]) = decodeLoop result shift s := by
  induction s with
  | nil =>
    intro result shift
    simpa [decodeLoop] using decodeLoop_nonTerminating c hc result shift
  | cons x s ih =>
    intro result shift
    show decodeLoop result shift (x :: (s ++ [c])) = _
    simp only [decodeLoop, ih]

set_option maxRecDepth 100000 in
theorem nonTerminating_of_bit : ∀ c, c < 256 → sub8 c 63 &&& 0x20 ≠ 0 → nonTerminating c := by
  decide

/-! ## `Encode`, point by point -/

theorem latAt_cons_succ (p : LatLng) (path : List LatLng) (k : Nat) :
    latAt (p :: path) (k + 1) = latAt path k := by
  simp [latAt]

theorem lngAt_cons_succ (p : LatLng) (path : List LatLng) (k : Nat) :
    lngAt (p :: path) (k + 1) = lngAt path k := by
  simp [lngAt]

theorem prev_cons (init x : Int) (f g : Nat → Int) (h0 : g 0 = x)
    (hs : ∀ k, g (k + 1) = f k) (k : Nat) : prev init g (k + 1) = prev x f k := by
  cases k with
  | zero => simpa [prev] using h0
  | succ j => simpa [prev] using hs j

theorem encodePath_by_index (path : List LatLng) : ∀ llat llng : Int,
    encodePath llat llng path =
      (List.range path.length).flatMap (fun k =>
        encode (sub64 (latAt path k) (prev llat (latAt path) k)) ++
        encode (sub64 (lngAt path k) (prev llng (lngAt path) k))) := by
  induction path with
  | nil => intro llat llng; rfl
  | cons p path ih =>
    intro llat llng
    have hlat : ∀ k, prev llat (latAt (p :: path)) (k + 1)
        = prev (toInt64 (roundF64 (p.Lat * 100000))) (latAt path) k :=
      prev_cons _ _ _ _ (by simp [latAt]) (latAt_cons_succ p path)
    have hlng : ∀ k, prev llng (lngAt (p :: path)) (k + 1)
        = prev (toInt64 (roundF64 (p.Lng * 100000))) (lngAt path) k :=
      prev_cons _ _ _ _ (by simp [lngAt]) (lngAt_cons_succ p path)
    rw [List.length_cons, List.range_succ_eq_map, List.flatMap_cons, List.flatMap_map]
    simp only [encodePath, ih, Function.comp_def, Nat.succ_eq_add_one, latAt_cons_succ,
      lngAt_cons_succ, hlat, hlng]
    simp [latAt, lngAt, prev]

/-- C3, counterexample: the byte sequence 95 ends on a continuation byte and the byte
sequence 64 holds exactly one complete integer (-1); `Decode` answers both with the
empty list of points and no error. -/
theorem Decode_truncated_no_error :
    (sub8 95 63 &&& 0x20 ≠ 0 ∧ decodeString [95] = [] ∧
      DecodeOutcome { Points := [95] } = Except.ok [] ∧
      DecodeOutcome { Points := [95] } ≠ Except.error DecodeError.TruncatedVarint) ∧
    (decodeString [64] = [-1] ∧
      DecodeOutcome { Points := [64] } = Except.ok [] ∧
      DecodeOutcome { Points := [64] } ≠ Except.error DecodeError.TruncatedPointPair) := by
  have h95 : Decode { Points := [95] } = [] := by decide
  have h64 : Decode { Points := [64] } = [] := by decide
  refine ⟨⟨by decide, by decide, ?_, ?_⟩, by decide, ?_, ?_⟩
  · simp only [DecodeOutcome, h95]
  · simp [DecodeOutcome]
  · simp only [DecodeOutcome, h64]
  · simp [DecodeOutcome]

/-- C3, amended: `Decode` has no error result. For every byte sequence `s` it returns
a list of points, one for each complete pair of integers that `decodeString` sends
(half their number, rounded down); a final byte with the continuation bit set changes
nothing, and a last integer without a partner is left out. A sequence that ends on a
point boundary is decoded without error as well. -/
theorem Decode_returns_complete_pairs (s : List Nat) :
    DecodeOutcome { Points := s } = Except.ok (Decode { Points := s }) ∧
    (Decode { Points := s }).length = (decodeString s).length / 2 ∧
    (∀ c, c < 256 → sub8 c 63 &&& 0x20 ≠ 0 →
        Decode { Points := s ++ [c] } = Decode { Points := s }) ∧
    (∀ ds d, decodeString s = ds ++ [d] → ds.length % 2 = 0 →
        Decode { Points := s } = decodePairs 0 0 ds) := by
  refine ⟨rfl, ?_, ?_, ?_⟩
  · show (decodePairs 0 0 (decodeString s)).length = (decodeString s).length / 2
    apply decodePairs_length
    omega
  · intro c hc hbit
    simp only [Decode, decodeString]
    rw [decodeLoop_append_nonTerminating c (nonTerminating_of_bit c hc hbit)]
  · intro ds d hds hlen
    simp only [Decode, hds]
    exact decodePairs_drop_last (ds.length / 2) ds d 0 0 (by omega)

/-- C3, instance of the amended claim: the bytes 64, 64, 64 hold three integers; the
byte 95 after them changes nothing and the third integer is left out. -/
theorem Decode_returns_complete_pairs_witness :
    Decode { Points := [64, 64, 64] ++ [95] } = Decode { Points := [64, 64, 64] } ∧
    Decode { Points := [64, 64, 64] } = decodePairs 0 0 [-1, -1] :=
  ⟨(Decode_returns_complete_pairs [64, 64, 64]).2.2.1 95 (by decide) (by decide),
   (Decode_returns_complete_pairs [64, 64, 64]).2.2.2 [-1, -1] (-1) (by decide) (by decide)⟩

/-- C5. Wire structure of `Encode`: with `latAt path k`, `lngAt path k` the integers
computed for point `k`, `Encode(path).Points` is the concatenation, for k = 0..n-1 in
input order, of `encode` of the latitude difference to the previous point followed by
`encode` of the longitude difference (`int64` subtraction, the point before the first
being (0,0)), with nothing between or around these pieces. -/
theorem Encode_wire_structure (path : List LatLng) :
    (Encode path).Points =
      (List.range path.length).flatMap (fun k =>
        encode (sub64 (latAt path k) (prev 0 (latAt path) k)) ++
        encode (sub64 (lngAt path k) (prev 0 (lngAt path) k))) :=
  encodePath_by_index path 0 0

/-- C6. `Decode` accumulates delta pairs: when `decodeString` sends the 2m integers
`d_0, ..., d_{2m-1}`, `Decode` returns exactly m points, and for k < m the k-th point
is `(L_k * 1e-5, G_k * 1e-5)` with `L_k = d_0 + d_2 + ... + d_{2k}` and
`G_k = d_1 + d_3 + ... + d_{2k+1}`, the sums taken in `int64`. -/
theorem Decode_accumulates (p : Polyline) (m : Nat)
    (h : (decodeString p.Points).length = 2 * m) :
    (Decode p).length = m ∧
    ∀ k, k < m → (Decode p)[k]? =
      some { Lat := scale (wrap64 (evenSum (decodeString p.Points) k)),
             Lng := scale (wrap64 (oddSum (decodeString p.Points) k)) } := by
  constructor
  · exact decodePairs_length m _ 0 0 (Or.inl h)
  · intro k hk
    have := decodePairs_get m (decodeString p.Points) 0 0 h k hk
    simpa [Decode] using this

/-- C6, instance: the reference string holds six integers and decodes to 3 points. -/
theorem Decode_accumulates_witness :
    (decodeString (Polyline.Points { Points := "_p~iF~ps|U_ulLnnqC_mqNvxq`@".toList.map Char.toNat })).length
      = 2 * 3 ∧
    (Decode { Points := "_p~iF~ps|U_ulLnnqC_mqNvxq`@".toList.map Char.toNat }).length = 3 :=
  ⟨by decide,
   (Decode_accumulates { Points := "_p~iF~ps|U_ulLnnqC_mqNvxq`@".toList.map Char.toNat } 3
      (by decide)).1⟩


/-! ## Decoding the bytes of one encoded integer -/

theorem wrap64_add_wrap64 (a b : Int) : wrap64 (a + wrap64 b) = wrap64 (a + b) := by
  unfold wrap64; omega

theorem wrap64_wrap64 (a : Int) : wrap64 (wrap64 a) = wrap64 a := by
  unfold wrap64; omega

theorem shl64_eq (b : Int) (j : Nat) (h : 5 * j < 64) :
    shl64 b (5 * j) = wrap64 (b * 32 ^ j) := by
  unfold shl64
  rw [if_pos h, pow_mul]
  norm_num

/-- A byte from 95 to 126 or the byte 63 does not end the current integer. -/
theorem decodeLoop_continue (result : Int) (shift c : Nat) (s : List Nat)
    (hc : nonTerminating c) :
    decodeLoop result shift (c :: s) =
      decodeLoop (add64 result (shl64 ((sub8 (sub8 c 63) 1 : Nat) : Int) shift))
        (add8 shift 5) s := by
  unfold nonTerminating at hc
  simp only [decodeLoop, hc, if_true]

/-- A byte that fails the test `b >= 0x1f` ends the current integer: the value is sent
and the state is reset to `result = 1`, `shift = 0`. -/
theorem decodeLoop_emit (result : Int) (shift c : Nat) (s : List Nat)
    (hc : ¬ nonTerminating c) :
    decodeLoop result shift (c :: s) =
      (if add64 result (shl64 ((sub8 (sub8 c 63) 1 : Nat) : Int) shift) % 2 ≠ 0
        then not64 (sar64 (add64 result (shl64 ((sub8 (sub8 c 63) 1 : Nat) : Int) shift)) 1)
        else sar64 (add64 result (shl64 ((sub8 (sub8 c 63) 1 : Nat) : Int) shift)) 1)
      :: decodeLoop 1 0 s := by
  unfold nonTerminating at hc
  simp only [decodeLoop, hc, if_false]

/-- The sign unfold at the end of an integer in `decodeString`. -/
theorem unfold_fold {v : Int} (h : InFoldRange v) :
    (if fold v % 2 ≠ 0 then not64 (sar64 (fold v) 1) else sar64 (fold v) 1) = v := by
  rw [fold_eq h]
  unfold InFoldRange at h
  unfold not64 sar64
  simp only [pow_one]
  split <;> split <;> omega

/-- Decoding the chunk bytes of a positive `u` from the state `(result, 5j)`: the
accumulator ends at `result + u * 32^j - 32^j` (in `int64`), one value is sent and the
state is reset. -/
theorem decodeLoop_encodeLoop (fuel : Nat) : ∀ (u : Int), 0 < u → u < 32 ^ (fuel + 1) →
    ∀ (j : Nat) (result : Int) (rest : List Nat), 5 * (j + fuel) < 64 →
    decodeLoop result (5 * j) (encodeLoop (fuel + 1) u ++ rest) =
      (if wrap64 (result + u * 32 ^ j - 32 ^ j) % 2 ≠ 0
        then not64 (sar64 (wrap64 (result + u * 32 ^ j - 32 ^ j)) 1)
        else sar64 (wrap64 (result + u * 32 ^ j - 32 ^ j)) 1)
      :: decodeLoop 1 0 rest := by
  induction fuel with
  | zero =>
    intro u h0 h j result rest hj
    have hu : u < 32 := by simpa using h
    rw [encodeLoop_last 0 (le_of_lt h0) hu]
    have hterm : ¬ nonTerminating (u + 63).toNat := by
      unfold nonTerminating sub8; omega
    have hb : ((sub8 (sub8 (u + 63).toNat 63) 1 : Nat) : Int) = u - 1 := by
      unfold sub8; omega
    rw [List.singleton_append, decodeLoop_emit _ _ _ _ hterm, hb,
      shl64_eq _ _ (by omega)]
    have hacc : add64 result (wrap64 ((u - 1) * 32 ^ j)) = wrap64 (result + u * 32 ^ j - 32 ^ j) := by
      unfold add64
      rw [wrap64_add_wrap64]
      congr 1; ring
    rw [hacc]
  | succ n ih =>
    intro u h0 h j result rest hj
    by_cases hu : u < 32
    · rw [encodeLoop_last (n + 1) (le_of_lt h0) hu]
      have hterm : ¬ nonTerminating (u + 63).toNat := by
        unfold nonTerminating sub8; omega
      have hb : ((sub8 (sub8 (u + 63).toNat 63) 1 : Nat) : Int) = u - 1 := by
        unfold sub8; omega
      rw [List.singleton_append, decodeLoop_emit _ _ _ _ hterm, hb,
        shl64_eq _ _ (by omega)]
      have hacc : add64 result (wrap64 ((u - 1) * 32 ^ j)) = wrap64 (result + u * 32 ^ j - 32 ^ j) := by
        unfold add64
        rw [wrap64_add_wrap64]
        congr 1; ring
      rw [hacc]
    · have hu32 : 32 ≤ u := by omega
      have hdiv : u / 32 < 32 ^ (n + 1) := by
        rw [pow_succ] at h
        omega
      rw [encodeLoop_more (n + 1) hu32]
      have hcont : nonTerminating (95 + (u % 32).toNat) := by
        unfold nonTerminating sub8; omega
      have hb : ((sub8 (sub8 (95 + (u % 32).toNat) 63) 1 : Nat) : Int) = 31 + u % 32 := by
        unfold sub8; omega
      have hshift : add8 (5 * j) 5 = 5 * (j + 1) := by unfold add8; omega
      rw [List.cons_append, decodeLoop_continue _ _ _ _ hcont, hb, shl64_eq _ _ (by omega),
        hshift, ih (u / 32) (by omega) hdiv (j + 1) _ rest (by omega)]
      have hacc : wrap64 (add64 result (wrap64 ((31 + u % 32) * 32 ^ j)) + u / 32 * 32 ^ (j + 1)
          - 32 ^ (j + 1)) = wrap64 (result + u * 32 ^ j - 32 ^ j) := by
        unfold add64
        rw [wrap64_add_wrap64, sub_eq_add_neg, add_assoc, wrap64_add_left]
        congr 1
        have hdm : u = 32 * (u / 32) + u % 32 := by omega
        rw [pow_succ]
        nth_rewrite 3 [hdm]
        ring
      rw [hacc]

/-- The 64 rounds allowed to the loop of `encode` are the same as 13. -/
theorem encode_eq_thirteen (v : Int) : encode v = encodeLoop (12 + 1) (fold v) := by
  have h : fold v < 32 ^ (12 + 1) := lt_trans (fold_lt v) (by norm_num)
  exact encodeLoop_fuel 12 (fold v) h 51

/-- The integer decoder inverts `encode` on every non-zero value of the fold range,
whatever follows the bytes of the value. -/
theorem decodeString_encode_append {v : Int} (h : InFoldRange v) (hv : v ≠ 0)
    (rest : List Nat) : decodeLoop 1 0 (encode v ++ rest) = v :: decodeLoop 1 0 rest := by
  have hb := fold_bounds h
  have hpos : 0 < fold v := by
    have := fold_eq h
    unfold InFoldRange at h
    rw [this]; split <;> omega
  have hlt : fold v < 32 ^ (12 + 1) := lt_trans hb.2 (by norm_num)
  have key := decodeLoop_encodeLoop 12 (fold v) hpos hlt 0 1 rest (by norm_num)
  rw [encode_eq_thirteen]
  simp only [Nat.mul_zero, pow_zero, mul_one] at key
  rw [key]
  have hw : wrap64 (1 + fold v - 1) = fold v := by
    rw [show (1 : Int) + fold v - 1 = fold v by ring]
    exact wrap64_of_inInt64 ⟨by omega, hb.2⟩
  rw [hw, unfold_fold h]

/-- C13. Sign fold inverted for negative values: for every `v` with -2^62 ≤ v < 0,
`decodeString` run on exactly the bytes written by `encode v` sends exactly one
integer, and that integer is `v`. -/
theorem decodeString_encode_negative (v : Int) (hlo : -2 ^ 62 ≤ v) (hneg : v < 0) :
    decodeString (encode v) = [v] := by
  have h : InFoldRange v := ⟨hlo, by omega⟩
  have key := decodeString_encode_append h (by omega) []
  simpa [decodeString, decodeLoop] using key

/-- C13, instance: the value -75000 of the reference vector. -/
theorem decodeString_encode_negative_witness :
    decodeString (encode (-75000)) = [-75000] :=
  decodeString_encode_negative (-75000) (by decide) (by decide)

/-! ## The bytes of `encode` as base-32 digits -/

theorem wireBytes_cons (d : Nat) {ds : List Nat} (h : ds ≠ []) :
    wireBytes (d :: ds) = (d + 95) :: wireBytes ds := by
  cases ds with
  | nil => exact absurd rfl h
  | cons e es => rfl

theorem specFold_eq {v : Int} (h : InFoldRange v) : (specFold v : Int) = fold v := by
  rw [fold_eq h]
  unfold specFold
  unfold InFoldRange at h
  split <;> split <;> omega

theorem encodeLoop_digits (fuel : Nat) : ∀ u : Int, 0 ≤ u → u < 32 ^ (fuel + 1) →
    encodeLoop (fuel + 1) u = wireBytes (Nat.digits 32 u.toNat) := by
  induction fuel with
  | zero =>
    intro u h0 h
    have hu : u < 32 := by simpa using h
    rw [encodeLoop_last 0 h0 hu]
    by_cases hz : u = 0
    · subst hz; simp [wireBytes]
    · rw [Nat.digits_of_lt 32 u.toNat (by omega) (by omega)]
      simp only [wireBytes]
      congr 1; omega
  | succ n ih =>
    intro u h0 h
    by_cases hu : u < 32
    · rw [encodeLoop_last (n + 1) h0 hu]
      by_cases hz : u = 0
      · subst hz; simp [wireBytes]
      · rw [Nat.digits_of_lt 32 u.toNat (by omega) (by omega)]
        simp only [wireBytes]
        congr 1; omega
    · have hu32 : 32 ≤ u := by omega
      have hdiv : u / 32 < 32 ^ (n + 1) := by
        rw [pow_succ] at h
        omega
      rw [encodeLoop_more (n + 1) hu32, ih (u / 32) (by omega) hdiv,
        Nat.digits_def' (by norm_num : 1 < 32) (by omega : 0 < u.toNat)]
      have hq : (u / 32).toNat = u.toNat / 32 := by omega
      have hne : Nat.digits 32 (u.toNat / 32) ≠ [] := by
        rw [Nat.digits_ne_nil_iff_ne_zero]; omega
      rw [wireBytes_cons _ hne, hq]
      congr 1; omega

/-- C14. `encode` writes the base-32 digits of the folded value: for every `v` with
-2^62 ≤ v ≤ 2^62-1 and `u = specFold v` (2v for v ≥ 0, -2v-1 for v < 0), the list
`Nat.digits 32 u` holds the base-32 digits of `u`, least significant first, each below
32, with a non-zero last digit (it is empty for u = 0, which stands for the single
digit 0), and `encode v` writes these digits with the offset 95 on every digit but the
last and the offset 63 on the last. -/
theorem encode_base32_digits (v : Int) (h : InFoldRange v) :
    Nat.ofDigits 32 (Nat.digits 32 (specFold v)) = specFold v ∧
    (∀ d ∈ Nat.digits 32 (specFold v), d < 32) ∧
    (∀ hne : Nat.digits 32 (specFold v) ≠ [], (Nat.digits 32 (specFold v)).getLast hne ≠ 0) ∧
    encode v = wireBytes (Nat.digits 32 (specFold v)) := by
  refine ⟨Nat.ofDigits_digits 32 _, fun d hd => Nat.digits_lt_base (by norm_num) hd,
    fun hne => Nat.getLast_digit_ne_zero 32 (Nat.digits_ne_nil_iff_ne_zero.1 hne), ?_⟩
  have hb := fold_bounds h
  have hlt : fold v < 32 ^ (12 + 1) := lt_trans hb.2 (by norm_num)
  rw [encode_eq_thirteen, encodeLoop_digits 12 (fold v) hb.1 hlt, ← specFold_eq h]
  rfl

/-- C14, instance: 255200 folds to 510400, whose base-32 digits are 0, 14, 18, 15. -/
theorem encode_base32_digits_witness :
    encode 255200 = wireBytes (Nat.digits 32 (specFold 255200)) :=
  (encode_base32_digits 255200 (by decide)).2.2.2

/-- C15. Evaluation at the failing input: the byte 63 has the bit 0x20 of `c - 63`
clear, yet the test of `decodeString` takes it as non-terminating (`63 - 63 - 1` is
255 in `uint8`): in every state no value is sent and the accumulator and the shift
are carried on instead of being reset. -/
theorem byte63_not_terminator :
    (63 - 63) &&& 0x20 = 0 ∧ sub8 (sub8 63 63) 1 = 255 ∧ nonTerminating 63 ∧
    (∀ (result : Int) (shift : Nat) (s : List Nat),
      decodeLoop result shift (63 :: s) =
        decodeLoop (add64 result (shl64 255 shift)) (add8 shift 5) s) ∧
    decodeString [63] = [] := by
  refine ⟨by decide, by decide, by decide, ?_, by decide⟩
  intro result shift s
  exact decodeLoop_continue result shift 63 s (by decide)

/-! ## The length of one encoded integer -/

theorem encodeLoop_length_le (fuel : Nat) : ∀ u : Int, (encodeLoop fuel u).length ≤ fuel := by
  induction fuel with
  | zero => intro u; simp [encodeLoop]
  | succ n ih =>
    intro u
    unfold encodeLoop
    split
    · simp only [List.length_cons]; have := ih (sar64 u 5); omega
    · simp

theorem encodeLoop_length_pos (fuel : Nat) (u : Int) : 1 ≤ (encodeLoop (fuel + 1) u).length := by
  unfold encodeLoop
  split <;> simp

/-- C17, counterexample: the `int64` value 2^62-1 is written in 13 bytes. -/
theorem encode_thirteen_bytes :
    InInt64 (2 ^ 62 - 1) ∧ (encode (2 ^ 62 - 1)).length = 13 ∧
    ¬ (encode (2 ^ 62 - 1)).length ≤ 11 := by
  decide

/-- C17, amended: for every integer `v` the loop of `encode` terminates (it stops by
its own test before the bound on the rounds, so that any larger bound gives the same
bytes) and `encode v` writes at least 1 and at most 13 bytes. -/
theorem encode_length_bounds (v : Int) :
    (∀ extra : Nat, encodeLoop (64 + extra) (fold v) = encode v) ∧
    1 ≤ (encode v).length ∧ (encode v).length ≤ 13 := by
  refine ⟨encode_fuel_independent v, encodeLoop_length_pos 63 (fold v), ?_⟩
  rw [encode_eq_thirteen]
  exact encodeLoop_length_le 13 (fold v)

/-! ## Integer boundaries in the byte stream -/

theorem decodeLoop_append_boundary (c : Nat) (hc : ¬ nonTerminating c) (t : List Nat) :
    ∀ (b : List Nat) (result : Int) (shift : Nat),
      decodeLoop result shift (b ++ c :: t) =
        decodeLoop result shift (b ++ [c]) ++ decodeLoop 1 0 t := by
  intro b
  induction b with
  | nil =>
    intro result shift
    rw [List.nil_append, List.nil_append, decodeLoop_emit _ _ _ _ hc,
      decodeLoop_emit _ _ _ _ hc]
    rfl
  | cons x b ih =>
    intro result shift
    by_cases hx : nonTerminating x
    · rw [List.cons_append, List.cons_append, decodeLoop_continue _ _ _ _ hx,
        decodeLoop_continue _ _ _ _ hx, ih]
    · rw [List.cons_append, List.cons_append, decodeLoop_emit _ _ _ _ hx,
        decodeLoop_emit _ _ _ _ hx, ih]
      rfl

/-- After a byte sequence that ends on an integer boundary the decoder starts afresh. -/
theorem decodeString_append_of_boundary (b t : List Nat)
    (hb : b = [] ∨ ∃ b0 c, b = b0 ++ [c] ∧ ¬ nonTerminating c) :
    decodeString (b ++ t) = decodeString b ++ decodeString t := by
  rcases hb with rfl | ⟨b0, c, rfl, hc⟩
  · rfl
  · unfold decodeString
    rw [List.append_assoc, List.singleton_append]
    exact decodeLoop_append_boundary c hc t b0 1 0

theorem decodePairs_append_short (ds dt : List Int) (heven : ds.length % 2 = 0)
    (hshort : dt.length ≤ 1) (lat lng : Int) :
    decodePairs lat lng (ds ++ dt) = decodePairs lat lng ds := by
  match dt, hshort with
  | [], _ => rw [List.append_nil]
  | [d], _ => exact decodePairs_drop_last (ds.length / 2) ds d lat lng (by omega)
  | _ :: _ :: _, h => simp only [List.length_cons] at h; omega

/-- C16. `Decode` silently drops a dangling tail: for every byte sequence `b` that
holds an even number of complete integers and ends on an integer boundary (it is empty
or its last byte ends an integer) and every byte sequence `t` that on its own decodes
to at most one integer, `Decode(b ++ t)` returns exactly the points of `Decode(b)`,
without an error and without an extra point. -/
theorem Decode_drops_dangling_tail (b t : List Nat)
    (hb : b = [] ∨ ∃ b0 c, b = b0 ++ [c] ∧ ¬ nonTerminating c)
    (heven : (decodeString b).length % 2 = 0)
    (ht : (decodeString t).length ≤ 1) :
    Decode { Points := b ++ t } = Decode { Points := b } ∧
    DecodeOutcome { Points := b ++ t } = Except.ok (Decode { Points := b }) ∧
    (Decode { Points := b ++ t }).length = (decodeString b).length / 2 := by
  have hmain : Decode { Points := b ++ t } = Decode { Points := b } := by
    simp only [Decode]
    rw [decodeString_append_of_boundary b t hb]
    exact decodePairs_append_short _ _ heven ht 0 0
  refine ⟨hmain, ?_, ?_⟩
  · simp only [DecodeOutcome, hmain]
  · rw [hmain]
    show (decodePairs 0 0 (decodeString b)).length = (decodeString b).length / 2
    exact decodePairs_length _ _ 0 0 (by omega)

/-- C16, instance: two complete integers followed by a third one and a continuation
byte. -/
theorem Decode_drops_dangling_tail_witness :
    Decode { Points := [65, 64] ++ [64, 95] } = Decode { Points := [65, 64] } :=
  (Decode_drops_dangling_tail [65, 64] [64, 95]
    (Or.inr ⟨[65], 64, rfl, by decide⟩) (by decide) (by decide)).1

/-! ## `Decode` never leaves its loop except by `return` -/

theorem decodeFor_eq : ∀ (fuel : Nat) (lat lng : Int) (ch : List Int) (path : List LatLng),
    ch.length / 2 + 1 ≤ fuel →
    decodeFor fuel lat lng ch path = some (path ++ decodePairs lat lng ch) := by
  intro fuel
  induction fuel with
  | zero => intro lat lng ch path h; omega
  | succ n ih =>
    intro lat lng ch path h
    match ch, h with
    | [], _ => simp [decodeFor, decodePairs]
    | [_], _ => simp [decodeFor, decodePairs]
    | a :: b :: rest, h =>
      simp only [decodeFor, decodePairs]
      rw [ih _ _ rest _ (by simp only [List.length_cons] at h; omega)]
      simp

theorem sar_not_inInt64 {x : Int} (h : InInt64 x) :
    InInt64 (if x % 2 ≠ 0 then not64 (sar64 x 1) else sar64 x 1) := by
  unfold InInt64 at *
  unfold not64 sar64
  simp only [pow_one]
  split <;> omega

theorem decodeLoop_inInt64 (s : List Nat) : ∀ (result : Int) (shift : Nat),
    ∀ v ∈ decodeLoop result shift s, InInt64 v := by
  induction s with
  | nil => intro result shift v hv; simp [decodeLoop] at hv
  | cons c s ih =>
    intro result shift v hv
    by_cases hc : nonTerminating c
    · rw [decodeLoop_continue _ _ _ _ hc] at hv
      exact ih _ _ v hv
    · rw [decodeLoop_emit _ _ _ _ hc] at hv
      rcases List.mem_cons.1 hv with rfl | hv
      · exact sar_not_inInt64 (inInt64_wrap64 _)
      · exact ih _ _ v hv

theorem decodeLoop_length_le (s : List Nat) : ∀ (result : Int) (shift : Nat),
    (decodeLoop result shift s).length ≤ s.length := by
  induction s with
  | nil => intro result shift; simp [decodeLoop]
  | cons c s ih =>
    intro result shift
    by_cases hc : nonTerminating c
    · rw [decodeLoop_continue _ _ _ _ hc]
      have := ih (add64 result (shl64 ((sub8 (sub8 c 63) 1 : Nat) : Int) shift)) (add8 shift 5)
      simp only [List.length_cons]; omega
    · rw [decodeLoop_emit _ _ _ _ hc]
      have := ih 1 0
      simp only [List.length_cons]; omega

/-- C12. `Decode` never panics: for every byte sequence `decodeString` goes through
the whole input, sending at most one value per byte and only `int64` values (shift
counts of 64 and more give 0, the `uint8` counter wraps), and the `for` loop of `Decode`
ends by `return path` within `len/2 + 1` rounds with the list of points `Decode`
stands for; the statement after the loop is not reached. -/
theorem Decode_never_panics (s : List Nat) :
    (decodeString s).length ≤ s.length ∧
    (∀ v ∈ decodeString s, InInt64 v) ∧
    (∀ fuel, s.length / 2 + 1 ≤ fuel →
      decodeFor fuel 0 0 (decodeString s) [] = some (Decode { Points := s })) := by
  refine ⟨decodeLoop_length_le s 1 0, decodeLoop_inInt64 s 1 0, ?_⟩
  intro fuel hfuel
  have hlen := decodeLoop_length_le s 1 0
  rw [decodeFor_eq fuel 0 0 (decodeString s) [] (by unfold decodeString; omega)]
  rfl

/-- C12, instance: sixty non-terminating bytes (the shift counter passes 63 and wraps
past 255) followed by two terminators. -/
theorem Decode_never_panics_witness :
    decodeFor 32 0 0 (decodeString (List.replicate 60 126 ++ [64, 64])) []
      = some (Decode { Points := List.replicate 60 126 ++ [64, 64] }) :=
  (Decode_never_panics (List.replicate 60 126 ++ [64, 64])).2.2 32 (by decide)

/-! ## Quantisation -/

theorem tdiv_trunc (n d : Int) (hd : 0 < d) :
    (0 ≤ n → 0 ≤ n - d * Int.tdiv n d ∧ n - d * Int.tdiv n d < d ∧ 0 ≤ Int.tdiv n d) ∧
    (n ≤ 0 → -d < n - d * Int.tdiv n d ∧ n - d * Int.tdiv n d ≤ 0 ∧ Int.tdiv n d ≤ 0) := by
  constructor
  · intro hn
    rw [Int.tdiv_eq_ediv hn (le_of_lt hd)]
    have h1 := Int.emod_add_ediv n d
    have h2 := Int.emod_nonneg n (ne_of_gt hd)
    have h3 := Int.emod_lt_of_pos n hd
    have h4 := Int.ediv_nonneg hn (le_of_lt hd)
    refine ⟨by linarith, by linarith, h4⟩
  · intro hn
    have hm : 0 ≤ -n := by omega
    have ht : Int.tdiv n d = -((-n) / d) := by
      rw [← Int.tdiv_eq_ediv hm (le_of_lt hd), Int.neg_tdiv, neg_neg]
    rw [ht]
    have h1 := Int.emod_add_ediv (-n) d
    have h2 := Int.emod_nonneg (-n) (ne_of_gt hd)
    have h3 := Int.emod_lt_of_pos (-n) hd
    have h4 := Int.ediv_nonneg hm (le_of_lt hd)
    refine ⟨by linarith, by linarith, by linarith⟩

/-- The truncated quotient of numerator and denominator lies between 0 and the
rational, less than 1 away from it. -/
theorem trunc_bounds (f : ℚ) :
    (0 ≤ f → 0 ≤ f - (Int.tdiv f.num f.den : Int) ∧ f - (Int.tdiv f.num f.den : Int) < 1 ∧
      0 ≤ Int.tdiv f.num f.den) ∧
    (f ≤ 0 → -1 < f - (Int.tdiv f.num f.den : Int) ∧ f - (Int.tdiv f.num f.den : Int) ≤ 0 ∧
      Int.tdiv f.num f.den ≤ 0) := by
  have hdpos : (0 : Int) < f.den := by exact_mod_cast f.den_pos
  have hdq : (0 : ℚ) < (f.den : ℚ) := by exact_mod_cast f.den_pos
  have key : (f - (Int.tdiv f.num f.den : Int)) * (f.den : ℚ)
      = ((f.num - (f.den : Int) * Int.tdiv f.num f.den : Int) : ℚ) := by
    have hf := Rat.num_div_den f
    have hne : (f.den : ℚ) ≠ 0 := ne_of_gt hdq
    have hmul : f * (f.den : ℚ) = (f.num : ℚ) := by
      nth_rewrite 1 [← hf]
      field_simp
    push_cast
    rw [sub_mul, hmul]; ring
  constructor
  · intro hf0
    obtain ⟨h1, h2, h3⟩ := (tdiv_trunc f.num f.den hdpos).1 (Rat.num_nonneg.2 hf0)
    have h1q : (0 : ℚ) ≤ ((f.num - (f.den : Int) * Int.tdiv f.num f.den : Int) : ℚ) := by
      exact_mod_cast h1
    have h2q : ((f.num - (f.den : Int) * Int.tdiv f.num f.den : Int) : ℚ) < (f.den : ℚ) := by
      exact_mod_cast h2
    rw [← key] at h1q h2q
    refine ⟨nonneg_of_mul_nonneg_left h1q hdq, ?_, h3⟩
    apply lt_of_mul_lt_mul_right _ (le_of_lt hdq)
    rw [one_mul]; exact h2q
  · intro hf0
    have hn : f.num ≤ 0 := by
      by_contra hcon
      have : 0 < f := Rat.num_pos.1 (by omega)
      linarith
    obtain ⟨h1, h2, h3⟩ := (tdiv_trunc f.num f.den hdpos).2 hn
    have h1q : -(f.den : ℚ) < ((f.num - (f.den : Int) * Int.tdiv f.num f.den : Int) : ℚ) := by
      exact_mod_cast h1
    have h2q : ((f.num - (f.den : Int) * Int.tdiv f.num f.den : Int) : ℚ) ≤ 0 := by
      exact_mod_cast h2
    rw [← key] at h1q h2q
    refine ⟨?_, ?_, h3⟩
    · apply lt_of_mul_lt_mul_right _ (le_of_lt hdq)
      rw [neg_one_mul]; exact h1q
    · by_contra hcon
      have hpos : 0 < f - (Int.tdiv f.num f.den : Int) := lt_of_not_ge hcon
      have := mul_pos hpos hdq
      linarith

/-- Inside the `int64` range the conversion is the truncated quotient itself. -/
theorem toInt64_eq_trunc (f : ℚ) (hlo : -2 ^ 63 ≤ f) (hhi : f < 2 ^ 63) :
    toInt64 f = Int.tdiv f.num f.den := by
  have hin : InInt64 (Int.tdiv f.num f.den) := by
    obtain ⟨hpos, hneg⟩ := trunc_bounds f
    unfold InInt64
    rcases le_total 0 f with hf | hf
    · obtain ⟨h1, -, h3⟩ := hpos hf
      constructor
      · omega
      · have : ((Int.tdiv f.num f.den : Int) : ℚ) < ((2 ^ 63 : Int) : ℚ) := by
          push_cast; linarith
        exact_mod_cast this
    · obtain ⟨-, h2, h3⟩ := hneg hf
      constructor
      · have : ((-2 ^ 63 : Int) : ℚ) ≤ ((Int.tdiv f.num f.den : Int) : ℚ) := by
          push_cast; linarith
        exact_mod_cast this
      · omega
  unfold toInt64
  simp only
  rw [if_pos hin]

/-- The conversion of a non-negative `float64` below `n + 1` and not below `n`. -/
theorem toInt64_eq_of_mem (f : ℚ) (n : Int) (h0 : 0 ≤ n) (hn : n < 2 ^ 62)
    (h1 : (n : ℚ) ≤ f) (h2 : f < (n : ℚ) + 1) : toInt64 f = n := by
  have hn0 : (0 : ℚ) ≤ (n : ℚ) := by exact_mod_cast h0
  have hnq : (n : ℚ) < 2 ^ 62 := by exact_mod_cast hn
  rw [toInt64_eq_trunc f (by linarith) (by linarith)]
  obtain ⟨ha, hb, -⟩ := (trunc_bounds f).1 (by linarith)
  have hlt : ((Int.tdiv f.num f.den : Int) : ℚ) < ((n + 1 : Int) : ℚ) := by
    push_cast; linarith
  have hgt : ((n - 1 : Int) : ℚ) < ((Int.tdiv f.num f.den : Int) : ℚ) := by
    push_cast; linarith
  have hlt2 : Int.tdiv f.num f.den < n + 1 := by exact_mod_cast hlt
  have hgt2 : n - 1 < Int.tdiv f.num f.den := by exact_mod_cast hgt
  omega

/-- C11, counterexample: for x = 0.000019 the scaled value is 1.9 and the integer
`Encode` uses is 1, which is 0.9 away from it; and for the `float64` x = 2^-16, whose
product with 1e5 is the `float64` 3125/2048 (no rounding at all), the integer is 1,
which is 1077/2048 away from it. -/
theorem quantise_not_nearest :
    (toInt64 (roundF64 ((0.000019 : ℚ) * 100000)) = 1 ∧
      ¬ |((toInt64 (roundF64 ((0.000019 : ℚ) * 100000)) : Int) : ℚ)
          - (0.000019 : ℚ) * 100000| ≤ 1 / 2) ∧
    (roundF64 (1 / 65536) = 1 / 65536 ∧
      roundF64 ((1 / 65536 : ℚ) * 100000) = (1 / 65536 : ℚ) * 100000 ∧
      toInt64 (roundF64 ((1 / 65536 : ℚ) * 100000)) = 1 ∧
      ¬ |((toInt64 (roundF64 ((1 / 65536 : ℚ) * 100000)) : Int) : ℚ)
          - (1 / 65536 : ℚ) * 100000| ≤ 1 / 2) := by
  have hq1 : toInt64 (roundF64 ((0.000019 : ℚ) * 100000)) = 1 := by
    have herr := roundF64_error ((0.000019 : ℚ) * 100000)
    have hval : (0.000019 : ℚ) * 100000 = 19 / 10 := by norm_num
    rw [hval] at herr ⊢
    rw [abs_le] at herr
    have hsmall : |(19 / 10 : ℚ)| / 2 ^ 53 + 1 / 2 ^ 1075 < 1 / 100 := by
      rw [abs_of_pos (by norm_num)]
      have h1 : (1 : ℚ) / 2 ^ 1075 ≤ 1 / 2 ^ 10 :=
        one_div_le_one_div_of_le (by positivity) (pow_le_pow_right₀ (by norm_num) (by norm_num))
      have h2 : (19 / 10 : ℚ) / 2 ^ 53 ≤ 1 / 2 ^ 10 := by norm_num
      have h3 : (1 : ℚ) / 2 ^ 10 < 1 / 200 := by norm_num
      linarith
    apply toInt64_eq_of_mem _ 1 (by decide) (by decide)
    · push_cast; linarith [herr.1]
    · push_cast; linarith [herr.2]
  have hx : roundF64 (1 / 65536) = 1 / 65536 := by
    have h := roundF64_exact 1 (-16) (by decide) (by decide)
    have hv : ((1 : Int) : ℚ) * 2 ^ (-16 : Int) = 1 / 65536 := by norm_num
    rwa [hv] at h
  have hp : roundF64 ((1 / 65536 : ℚ) * 100000) = (1 / 65536 : ℚ) * 100000 := by
    have h := roundF64_exact 3125 (-11) (by decide) (by decide)
    have hv : ((3125 : Int) : ℚ) * 2 ^ (-11 : Int) = (1 / 65536 : ℚ) * 100000 := by norm_num
    rwa [hv] at h
  have hq2 : toInt64 (roundF64 ((1 / 65536 : ℚ) * 100000)) = 1 := by
    rw [hp]
    apply toInt64_eq_of_mem _ 1 (by decide) (by decide) <;> norm_num
  refine ⟨⟨hq1, ?_⟩, hx, hp, hq2, ?_⟩
  · rw [hq1]; norm_num [abs_le]
  · rw [hq2]; norm_num [abs_le]

/-- C11, amended: quantisation truncates the `float64` product toward zero. For every
component `x` whose `float64` product `f = x*1e5` lies inside the `int64` range, the
integer `q(x)` that `Encode` uses is `f` with its fraction discarded: it lies between
0 and `f` and less than 1 away from it. The product itself is rounded, so `f` is within
`|x*10^5| / 2^53 + 2^-1075` of the exact `x*10^5`, and
`|q(x) - x*10^5| < 1 + |x*10^5| / 2^53 + 2^-1075`. -/
theorem quantise_truncates (x : ℚ)
    (hlo : -2 ^ 63 ≤ roundF64 (x * 100000)) (hhi : roundF64 (x * 100000) < 2 ^ 63) :
    |((toInt64 (roundF64 (x * 100000)) : Int) : ℚ) - roundF64 (x * 100000)| < 1 ∧
    |((toInt64 (roundF64 (x * 100000)) : Int) : ℚ)| ≤ |roundF64 (x * 100000)| ∧
    |roundF64 (x * 100000) - x * 100000| ≤ |x * 100000| / 2 ^ 53 + 1 / 2 ^ 1075 ∧
    |((toInt64 (roundF64 (x * 100000)) : Int) : ℚ) - x * 100000|
      < 1 + |x * 100000| / 2 ^ 53 + 1 / 2 ^ 1075 := by
  have herr := roundF64_error (x * 100000)
  generalize roundF64 (x * 100000) = f at hlo hhi herr
  have hfirst : |((toInt64 f : Int) : ℚ) - f| < 1 ∧ |((toInt64 f : Int) : ℚ)| ≤ |f| := by
    rw [toInt64_eq_trunc _ hlo hhi]
    obtain ⟨hpos, hneg⟩ := trunc_bounds f
    rcases le_total 0 f with hf | hf
    · obtain ⟨h1, h2, h3⟩ := hpos hf
      have h3q : (0 : ℚ) ≤ ((Int.tdiv f.num f.den : Int) : ℚ) := by exact_mod_cast h3
      constructor
      · rw [abs_lt]; constructor <;> linarith
      · rw [abs_of_nonneg h3q, abs_of_nonneg hf]; linarith
    · obtain ⟨h1, h2, h3⟩ := hneg hf
      have h3q : ((Int.tdiv f.num f.den : Int) : ℚ) ≤ 0 := by exact_mod_cast h3
      constructor
      · rw [abs_lt]; constructor <;> linarith
      · rw [abs_of_nonpos h3q, abs_of_nonpos hf]; linarith
  refine ⟨hfirst.1, hfirst.2, herr, ?_⟩
  have htri := abs_sub_le ((toInt64 f : Int) : ℚ) f (x * 100000)
  linarith [hfirst.1]

/-- C11, instance of the amended claim: the `float64` x = 2^-16. -/
theorem quantise_truncates_witness :
    |((toInt64 (roundF64 ((1 / 65536 : ℚ) * 100000)) : Int) : ℚ)
        - roundF64 ((1 / 65536 : ℚ) * 100000)| < 1 ∧
    |((toInt64 (roundF64 ((1 / 65536 : ℚ) * 100000)) : Int) : ℚ)|
        ≤ |roundF64 ((1 / 65536 : ℚ) * 100000)| ∧
    |roundF64 ((1 / 65536 : ℚ) * 100000) - (1 / 65536 : ℚ) * 100000|
        ≤ |(1 / 65536 : ℚ) * 100000| / 2 ^ 53 + 1 / 2 ^ 1075 ∧
    |((toInt64 (roundF64 ((1 / 65536 : ℚ) * 100000)) : Int) : ℚ) - (1 / 65536 : ℚ) * 100000|
        < 1 + |(1 / 65536 : ℚ) * 100000| / 2 ^ 53 + 1 / 2 ^ 1075 :=
  have hp : roundF64 ((1 / 65536 : ℚ) * 100000) = (1 / 65536 : ℚ) * 100000 := by
    have h := roundF64_exact 3125 (-11) (by decide) (by decide)
    have hv : ((3125 : Int) : ℚ) * 2 ^ (-11 : Int) = (1 / 65536 : ℚ) * 100000 := by norm_num
    rwa [hv] at h
  quantise_truncates (1 / 65536) (by rw [hp]; norm_num) (by rw [hp]; norm_num)

/-! ## Round trip of the integer points -/

theorem inInt64_of_inFoldRange {d : Int} (h : InFoldRange d) : InInt64 d := by
  unfold InFoldRange at h; unfold InInt64; omega

/-- When the exact differences of the integer points of a path lose no bit, they are
the values `Encode` hands to `encode`. -/
theorem deltas_eq_diffs (path : List LatLng) : ∀ a b : Int,
    (∀ d ∈ diffs a b (quantised path), InFoldRange d) →
    deltas a b path = diffs a b (quantised path) := by
  induction path with
  | nil => intro a b _; rfl
  | cons p path ih =>
    intro a b hd
    have hd0 : ∀ d ∈ (toInt64 (roundF64 (p.Lat * 100000)) - a) ::
        (toInt64 (roundF64 (p.Lng * 100000)) - b) ::
        diffs (toInt64 (roundF64 (p.Lat * 100000))) (toInt64 (roundF64 (p.Lng * 100000)))
          (quantised path), InFoldRange d := hd
    have h1 := hd0 _ (List.mem_cons_self _ _)
    have h2 := hd0 _ (List.mem_cons_of_mem _ (List.mem_cons_self _ _))
    have hrest := ih _ _ (fun d hmem =>
      hd0 d (List.mem_cons_of_mem _ (List.mem_cons_of_mem _ hmem)))
    show deltas a b (p :: path) = (toInt64 (roundF64 (p.Lat * 100000)) - a) ::
        (toInt64 (roundF64 (p.Lng * 100000)) - b) ::
        diffs (toInt64 (roundF64 (p.Lat * 100000))) (toInt64 (roundF64 (p.Lng * 100000)))
          (quantised path)
    simp only [deltas, sub64, wrap64_of_inInt64 (inInt64_of_inFoldRange h1),
      wrap64_of_inInt64 (inInt64_of_inFoldRange h2), hrest]

theorem quantised_inInt64 (path : List LatLng) :
    ∀ p ∈ quantised path, InInt64 p.1 ∧ InInt64 p.2 := by
  intro p hp
  simp only [quantised, List.mem_map] at hp
  obtain ⟨point, -, rfl⟩ := hp
  exact ⟨inInt64_toInt64 _, inInt64_toInt64 _⟩

/-- The integer decoder reads back a run of encoded non-zero values one by one. -/
theorem decodeLoop_flatMap_encode (ds : List Int) (hds : ∀ d ∈ ds, d ≠ 0 ∧ InFoldRange d)
    (rest : List Nat) :
    decodeLoop 1 0 (ds.flatMap encode ++ rest) = ds ++ decodeLoop 1 0 rest := by
  induction ds with
  | nil => rfl
  | cons d ds ih =>
    have hd := hds d (List.mem_cons_self _ _)
    rw [List.flatMap_cons, List.append_assoc, decodeString_encode_append hd.2 hd.1,
      ih (fun e he => hds e (List.mem_cons_of_mem _ he))]
    rfl

theorem decodePairs_eq_map_accumulate : ∀ (n : Nat) (ch : List Int) (lat lng : Int),
    ch.length ≤ n →
    decodePairs lat lng ch =
      (accumulate lat lng ch).map (fun p => { Lat := scale p.1, Lng := scale p.2 }) := by
  intro n
  induction n with
  | zero =>
    intro ch lat lng h
    match ch, h with
    | [], _ => rfl
  | succ n ih =>
    intro ch lat lng h
    match ch, h with
    | [], _ => rfl
    | [_], _ => rfl
    | a :: b :: rest, h =>
      simp only [decodePairs, accumulate, List.map_cons]
      rw [ih rest _ _ (by simp only [List.length_cons] at h; omega)]

theorem accumulate_diffs (pts : List (Int × Int)) : ∀ a b : Int,
    (∀ p ∈ pts, InInt64 p.1 ∧ InInt64 p.2) → accumulate a b (diffs a b pts) = pts := by
  induction pts with
  | nil => intro a b _; rfl
  | cons p pts ih =>
    intro a b hp
    have hp0 := hp p (List.mem_cons_self _ _)
    have h1 : add64 a (p.1 - a) = p.1 := by
      unfold add64; rw [show a + (p.1 - a) = p.1 by ring]; exact wrap64_of_inInt64 hp0.1
    have h2 : add64 b (p.2 - b) = p.2 := by
      unfold add64; rw [show b + (p.2 - b) = p.2 by ring]; exact wrap64_of_inInt64 hp0.2
    simp only [diffs, accumulate, h1, h2]
    rw [ih p.1 p.2 (fun q hq => hp q (List.mem_cons_of_mem _ hq))]

theorem diffs_length (pts : List (Int × Int)) : ∀ a b : Int,
    (diffs a b pts).length = 2 * pts.length := by
  induction pts with
  | nil => intro a b; rfl
  | cons p pts ih => intro a b; simp only [diffs, List.length_cons, ih]; omega

/-- C18. Round trip away from zero deltas: for every list `pts` of integer points
`(a_k, b_k)` that `Encode` quantises a path to, such that every consecutive difference
(the first against (0,0)) is non-zero and lies in [-2^62, 2^62-1], decoding the bytes
that `Encode` produces gives back these differences, `Decode` returns exactly n
points, the integers it accumulates for the k-th point are exactly `(a_k, b_k)`, and
the points returned are these integers passed through the scaling by 1e-5. -/
theorem round_trip_nonzero_deltas (path : List LatLng) (pts : List (Int × Int))
    (hq : quantised path = pts)
    (hd : ∀ d ∈ diffs 0 0 pts, d ≠ 0 ∧ InFoldRange d) :
    decodeString (Encode path).Points = diffs 0 0 pts ∧
    (Decode (Encode path)).length = pts.length ∧
    accumulate 0 0 (decodeString (Encode path).Points) = pts ∧
    Decode (Encode path) = pts.map (fun p => { Lat := scale p.1, Lng := scale p.2 }) := by
  subst hq
  have hin := quantised_inInt64 path
  have hstream : decodeString (Encode path).Points = diffs 0 0 (quantised path) := by
    simp only [Encode, decodeString, encodePath_eq_flatMap]
    rw [deltas_eq_diffs path 0 0 (fun d hmem => (hd d hmem).2)]
    have := decodeLoop_flatMap_encode (diffs 0 0 (quantised path)) hd []
    simpa [decodeLoop] using this
  have hdec : Decode (Encode path)
      = (quantised path).map (fun p => { Lat := scale p.1, Lng := scale p.2 }) := by
    unfold Decode
    rw [hstream, decodePairs_eq_map_accumulate _ _ 0 0 (le_refl _),
      accumulate_diffs (quantised path) 0 0 hin]
  refine ⟨hstream, ?_, ?_, hdec⟩
  · rw [hdec, List.length_map]
  · rw [hstream, accumulate_diffs (quantised path) 0 0 hin]

/-- C18, instance: the path (38.5, -120.25), (40.75, -120.5), whose coordinates are
`float64` values with exact products. -/
theorem round_trip_nonzero_deltas_witness :
    accumulate 0 0 (decodeString (Encode [{ Lat := 38.5, Lng := -120.25 },
        { Lat := 40.75, Lng := -120.5 }]).Points)
      = [(3850000, -12025000), (4075000, -12050000)] :=
  (round_trip_nonzero_deltas [{ Lat := 38.5, Lng := -120.25 }, { Lat := 40.75, Lng := -120.5 }]
    [(3850000, -12025000), (4075000, -12050000)]
    (by
      have h1 : toInt64 (roundF64 ((38.5 : ℚ) * 100000)) = 3850000 :=
        quantise_exact _ _ (by norm_num) (by decide)
      have h2 : toInt64 (roundF64 ((-120.25 : ℚ) * 100000)) = -12025000 :=
        quantise_exact _ _ (by norm_num) (by decide)
      have h3 : toInt64 (roundF64 ((40.75 : ℚ) * 100000)) = 4075000 :=
        quantise_exact _ _ (by norm_num) (by decide)
      have h4 : toInt64 (roundF64 ((-120.5 : ℚ) * 100000)) = -12050000 :=
        quantise_exact _ _ (by norm_num) (by decide)
      simp only [quantised, List.map_cons, List.map_nil, h1, h2, h3, h4])
    (by decide)).2.2.1

/-! ## Counting the integers the decoder sends -/

/-- In every state the number of values sent is the number of bytes that end an
integer. -/
theorem decodeLoop_length (s : List Nat) : ∀ (result : Int) (shift : Nat),
    (decodeLoop result shift s).length = s.countP (fun c => decide (¬ nonTerminating c)) := by
  induction s with
  | nil => intro result shift; rfl
  | cons c s ih =>
    intro result shift
    by_cases hc : nonTerminating c
    · rw [decodeLoop_continue _ _ _ _ hc, ih, List.countP_cons_of_neg]
      simpa using hc
    · rw [decodeLoop_emit _ _ _ _ hc, List.length_cons, ih, List.countP_cons_of_pos]
      simpa using hc

theorem countP_encode {d : Int} (h : InFoldRange d) :
    (encode d).countP (fun c => decide (¬ nonTerminating c)) = if d = 0 then 0 else 1 := by
  by_cases hz : d = 0
  · subst hz; decide
  · rw [if_neg hz, ← decodeLoop_length (encode d) 1 0]
    have := decodeString_encode_append h hz []
    rw [List.append_nil] at this
    rw [this]; rfl

theorem countP_flatMap_encode (ds : List Int) (hds : ∀ d ∈ ds, InFoldRange d) :
    (ds.flatMap encode).countP (fun c => decide (¬ nonTerminating c)) + ds.count 0
      = ds.length := by
  induction ds with
  | nil => rfl
  | cons d ds ih =>
    have hd := hds d (List.mem_cons_self _ _)
    have hrec := ih (fun e he => hds e (List.mem_cons_of_mem _ he))
    rw [List.flatMap_cons, List.countP_append, countP_encode hd, List.length_cons]
    by_cases hz : d = 0
    · subst hz
      rw [if_pos rfl, List.count_cons_self]; omega
    · rw [if_neg hz, List.count_cons_of_ne (fun h => hz h.symm)]; omega

/-- C19. Zero deltas lose points: for every list `pts` of n integer points that
`Encode` quantises a path to, whose consecutive differences (the first against (0,0))
all lie in [-2^62, 2^62-1] and of which exactly z are 0, `decodeString` sends exactly
2n - z integers from the bytes `Encode` produces, `Decode` returns exactly
floor((2n - z)/2) points, and whenever z ≥ 1 `Decode(Encode(path))` is strictly
shorter than `path`. -/
theorem zero_deltas_lose_points (path : List LatLng) (pts : List (Int × Int)) (z : Nat)
    (hq : quantised path = pts)
    (hd : ∀ d ∈ diffs 0 0 pts, InFoldRange d)
    (hz : (diffs 0 0 pts).count 0 = z) :
    pts.length = path.length ∧
    (decodeString (Encode path).Points).length = 2 * pts.length - z ∧
    (Decode (Encode path)).length = (2 * pts.length - z) / 2 ∧
    (1 ≤ z → (Decode (Encode path)).length < path.length) := by
  subst hq
  have hn : (quantised path).length = path.length := by simp [quantised]
  have h1 := countP_flatMap_encode (diffs 0 0 (quantised path)) hd
  have h2 := diffs_length (quantised path) 0 0
  have hcount : (decodeString (Encode path).Points).length
      = 2 * (quantised path).length - z := by
    simp only [Encode, decodeString, encodePath_eq_flatMap]
    rw [deltas_eq_diffs path 0 0 hd, decodeLoop_length]
    omega
  have hlen : (Decode (Encode path)).length = (2 * (quantised path).length - z) / 2 := by
    unfold Decode
    rw [decodePairs_length ((2 * (quantised path).length - z) / 2) _ 0 0 (by omega)]
  refine ⟨hn, hcount, hlen, ?_⟩
  intro hz1
  rw [hlen]
  have h3 : z ≤ 2 * (quantised path).length := by
    rw [← hz, ← h2]; exact List.count_le_length _ _
  omega

/-- C19, instance: the two points (1, 1) and (1, 2) share a latitude (one zero
difference out of four): three integers are sent and one point comes back. -/
theorem zero_deltas_lose_points_witness :
    (decodeString (Encode [{ Lat := 1, Lng := 1 }, { Lat := 1, Lng := 2 }]).Points).length
      = 2 * 2 - 1 ∧
    (Decode (Encode [{ Lat := 1, Lng := 1 }, { Lat := 1, Lng := 2 }])).length = (2 * 2 - 1) / 2 ∧
    (1 ≤ 1 → (Decode (Encode [{ Lat := 1, Lng := 1 }, { Lat := 1, Lng := 2 }])).length
      < [({ Lat := 1, Lng := 1 } : LatLng), { Lat := 1, Lng := 2 }].length) :=
  (zero_deltas_lose_points [{ Lat := 1, Lng := 1 }, { Lat := 1, Lng := 2 }]
    [(100000, 100000), (100000, 200000)] 1
    (by
      have h1 : toInt64 (roundF64 ((1 : ℚ) * 100000)) = 100000 :=
        quantise_exact _ _ (by norm_num) (by decide)
      have h2 : toInt64 (roundF64 ((2 : ℚ) * 100000)) = 200000 :=
        quantise_exact _ _ (by norm_num) (by decide)
      simp only [quantised, List.map_cons, List.map_nil, h1, h2])
    (by decide) (by decide)).2

end Maps
